import Mathlib

/-!
Verification development for the fuzzy-logic autonomous car (src/Main.py).

The source is a pygame program whose decision core is:
  * `Car.cast_ray`            — integer march along a ray until a white pixel or
                                the screen border is met (max 600 steps);
  * `Car.check_collision`     — casts RAYS = 7 rays from the car's front point and
                                stores the measured distances;
  * `Car.setup_fuzzy_control` — builds the skfuzzy rule base (close/medium per side
                                ray, a single close rule for the center ray);
  * `Car.fuzzy_logic_controller` — Mamdani inference (min-clip, max-aggregate,
                                centroid defuzzification) over the stored distances,
                                returning (steering_adjustment, speed).

Real-valued quantities (pygame floats, trigonometric offsets) are embedded as
rationals; the cosine/sine of an angle are abstracted as arbitrary rational
parameters, which covers every concrete angle.  The fuzzy pipeline delegated to
the skfuzzy library is embedded following that library's control-system code:
crisp inputs are clipped to the universe, each consequent term's cut is the
maximum firing strength over its rules, the aggregated membership is the
pointwise maximum of the cut terms sampled over the discrete output universe,
and defuzzification is skfuzzy's trapezoid-based centroid, which raises when
the aggregated membership is identically zero (embedded as `Option.none`).
-/

namespace FuzzyCar

/- Batteries marks the rational field operations irreducible; the concrete
evaluations below need them to unfold. -/
attribute [local semireducible] Rat.add Rat.mul Rat.sub Rat.inv

/-- `RAYS` constant of the source: number of rays. -/
def RAYS : ℕ := 7

/-- `SPREAD` constant of the source: angular spread of the rays in degrees. -/
def SPREAD : ℚ := 90

/-- Default `max_distance` of `Car.cast_ray`. -/
def MAX_DISTANCE : ℕ := 600

/-- Python `int()` on a rational: truncation toward zero
(`tdiv` of the reduced numerator by the positive denominator). -/
def pyInt (q : ℚ) : ℤ := q.num.tdiv q.den

/-- x-coordinate sampled by `cast_ray` at step `d`:
`nx = int(x + distance * cos(radians(angle)))` with `cosA` the cosine value. -/
def sampleX (x cosA : ℚ) (d : ℕ) : ℤ := pyInt (x + d * cosA)

/-- y-coordinate sampled by `cast_ray` at step `d`:
`ny = int(y - distance * sin(radians(angle)))` (y is inverted in pygame). -/
def sampleY (y sinA : ℚ) (d : ℕ) : ℤ := pyInt (y - d * sinA)

/-- The bounds test `0 <= nx < screen.get_width() and 0 <= ny < screen.get_height()`. -/
def inB (W H : ℕ) (nx ny : ℤ) : Prop :=
  0 ≤ nx ∧ nx < (W : ℤ) ∧ 0 ≤ ny ∧ ny < (H : ℤ)

instance (W H : ℕ) (nx ny : ℤ) : Decidable (inB W H nx ny) :=
  inferInstanceAs (Decidable (0 ≤ nx ∧ nx < (W : ℤ) ∧ 0 ≤ ny ∧ ny < (H : ℤ)))

/-- The loop body of `Car.cast_ray`, with the occupancy test
(`get_at == white`) abstracted as the predicate `blk`.  The argument list
carries the successive values of the loop variable `distance`; an in-bounds
blocked sample returns the current distance, an out-of-bounds sample breaks
out of the loop (returning `R`), and an exhausted loop returns `R`. -/
def castRayGo (W H : ℕ) (blk : ℤ → ℤ → Bool) (x y cosA sinA : ℚ) (R : ℕ) :
    List ℕ → ℕ
  | [] => R
  | d :: rest =>
    if inB W H (sampleX x cosA d) (sampleY y sinA d) then
      if blk (sampleX x cosA d) (sampleY y sinA d) then d
      else castRayGo W H blk x y cosA sinA R rest
    else R

/-- `Car.cast_ray(screen, start_pos, angle, max_distance)`:
`for distance in range(max_distance)` with the loop above. -/
def castRay (W H : ℕ) (blk : ℤ → ℤ → Bool) (x y cosA sinA : ℚ) (R : ℕ) : ℕ :=
  castRayGo W H blk x y cosA sinA R (List.range R)

/-- Shorthand: step `d` of the march samples an in-bounds point. -/
def stepIn (W H : ℕ) (x y cosA sinA : ℚ) (d : ℕ) : Prop :=
  inB W H (sampleX x cosA d) (sampleY y sinA d)

instance (W H : ℕ) (x y cosA sinA : ℚ) (d : ℕ) :
    Decidable (stepIn W H x y cosA sinA d) :=
  inferInstanceAs (Decidable (inB W H (sampleX x cosA d) (sampleY y sinA d)))

/-- Shorthand: step `d` of the march samples a blocked (white) point. -/
def stepBlk (blk : ℤ → ℤ → Bool) (x y cosA sinA : ℚ) (d : ℕ) : Prop :=
  blk (sampleX x cosA d) (sampleY y sinA d) = true

instance (blk : ℤ → ℤ → Bool) (x y cosA sinA : ℚ) (d : ℕ) :
    Decidable (stepBlk blk x y cosA sinA d) :=
  inferInstanceAs (Decidable (blk (sampleX x cosA d) (sampleY y sinA d) = true))

/-- The mutable state of a `Car` relevant to the decision core: `speed`, `angle`,
the rect position, the distances measured by `check_collision`, and the inputs
last written into the skfuzzy `ControlSystemSimulation` (`self.steering.input`).
Pixel/angle quantities are embedded as rationals. -/
structure Car where
  speed : ℚ
  angle : ℚ
  rectX : ℚ
  rectY : ℚ
  distances : List ℚ
  simInputs : List ℚ
  autopilot : Bool
deriving DecidableEq

/-- `Car.check_collision`: recompute all `RAYS` distances by ray casting from
the front point.  `fx, fy` abstract the front-center coordinates and
`rayCos i, raySin i` the cosine/sine of ray `i`'s angle
(`self.angle - SPREAD/2 + (SPREAD/(RAYS-1))*i`).  The red debug lines drawn by
the source are rendering only.  The source writes `self.distances[i] = distance`
for `i = 0, ..., RAYS-1` into a list that always has length `RAYS`, which is the
same as rebuilding the list. -/
def checkCollision (W H : ℕ) (blk : ℤ → ℤ → Bool) (rayCos raySin : ℕ → ℚ)
    (fx fy : ℚ) (c : Car) : Car :=
  { c with distances :=
      (List.range RAYS).map fun i =>
        ((castRay W H blk fx fy (rayCos i) (raySin i) MAX_DISTANCE : ℕ) : ℚ) }

/-- The three labels of each `distance_i` antecedent variable. -/
inductive DLabel where
  | close
  | medium
  | far
deriving DecidableEq

/-- The seven labels of the `steering` consequent variable. -/
inductive SLabel where
  | hard_left
  | left
  | slight_left
  | straight
  | slight_right
  | right
  | hard_right
deriving DecidableEq

/-- skfuzzy `trimf([a, b, c])` evaluated at `x`: value `1` exactly at the peak
`b`, linear ramps strictly inside `(a, b)` and `(b, c)`, `0` elsewhere.  The
sampled universes of the source have unit step and integer triangle corners, so
skfuzzy's linear interpolation of the sampled membership recovers exactly this
function at every rational point of the universe. -/
def trimf (a b c x : ℚ) : ℚ :=
  if x = b then 1
  else if a < x ∧ x < b then (x - a) / (b - a)
  else if b < x ∧ x < c then (c - x) / (c - b)
  else 0

/-- Membership functions installed by `Car.setup_distance` on every ray
variable (universe `np.arange(0, 601, 1)`). -/
def distMF : DLabel → ℚ → ℚ
  | .close, x => trimf 0 0 100 x
  | .medium, x => trimf 50 100 400 x
  | .far, x => trimf 300 600 600 x

/-- Membership functions installed on the `steering` consequent
(universe `np.arange(-90, 91, 1)`). -/
def steerMF : SLabel → ℚ → ℚ
  | .hard_left, x => trimf (-90) (-60) (-30) x
  | .left, x => trimf (-45) (-30) 0 x
  | .slight_left, x => trimf (-15) 0 15 x
  | .straight, x => trimf (-10) 0 10 x
  | .slight_right, x => trimf (-15) 0 15 x
  | .right, x => trimf 0 30 45 x
  | .hard_right, x => trimf 30 60 90 x

/-- One `ctrl.Rule`: a single antecedent term `distance_ray[ant]` and a single
consequent term `steering[cons]`. -/
structure Rule where
  ray : ℕ
  ant : DLabel
  cons : SLabel
deriving DecidableEq

/-- The rules appended for ray index `i` by the loop of
`Car.setup_fuzzy_control`, for ray count `N` (the source fixes `N = RAYS`).
`angle_adjustment = (i - N // 2) * 15` selects the center-ray consequent. -/
def rulesForIndex (N i : ℕ) : List Rule :=
  if i < N / 2 then
    [⟨i, .close, .right⟩, ⟨i, .medium, .slight_right⟩]
  else if N / 2 < i then
    [⟨i, .close, .left⟩, ⟨i, .medium, .slight_left⟩]
  else
    [⟨i, .close, if ((i : ℤ) - (N / 2 : ℕ)) * 15 < 0 then .hard_left else .hard_right⟩]

/-- The full rule list built by `Car.setup_fuzzy_control` for ray count `N`. -/
def setupRules (N : ℕ) : List Rule :=
  (List.range N).flatMap (rulesForIndex N)

/-- The rule base of the source (`N = RAYS = 7`). -/
def rules : List Rule := setupRules RAYS

/-- skfuzzy clips crisp inputs to the universe bounds
(`ControlSystemSimulation` default `clip_to_bounds=True`, universe [0, 600]). -/
def clipInput (d : ℚ) : ℚ := max 0 (min d 600)

/-- Firing strength of a rule: the membership degree of the crisp input of its
ray in its antecedent label.  Inputs are looked up positionally
(`input['distance_i'] = self.distances[i]`). -/
def firing (ds : List ℚ) (r : Rule) : ℚ :=
  distMF r.ant (clipInput (ds.getD r.ray 0))

/-- Cut (activation) level of a consequent term: maximum firing strength over
all rules concluding that label (skfuzzy accumulation `np.fmax`); `0` when no
such rule fires. -/
def activation (ds : List ℚ) (L : SLabel) : ℚ :=
  (rules.filter (fun r => r.cons = L)).foldr (fun r m => max (firing ds r) m) 0

/-- The seven consequent terms in declaration order. -/
def allSLabels : List SLabel :=
  [.hard_left, .left, .slight_left, .straight, .slight_right, .right, .hard_right]

/-- The cut level of every consequent term for the given inputs (computed once,
as skfuzzy does before building the aggregated output). -/
def cuts (ds : List ℚ) : List (SLabel × ℚ) :=
  allSLabels.map fun L => (L, activation ds L)

/-- Aggregated output membership at a point `x` of the output universe:
pointwise maximum over the terms of the term's membership clipped at its cut
(Mamdani min-clip, max-aggregate, starting from `np.zeros_like`). -/
def aggMFAt (cs : List (SLabel × ℚ)) (x : ℚ) : ℚ :=
  cs.foldr (fun p m => max (min p.2 (steerMF p.1 x)) m) 0

/-- The sampled output universe `np.arange(-90, 91, 1)`. -/
def steeringUniverse : List ℚ :=
  (List.range 181).map fun k => (k : ℚ) - 90

/-- The aggregated output fuzzy set sampled over the output universe, as
(point, membership) pairs. -/
def outputPoints (ds : List ℚ) : List (ℚ × ℚ) :=
  let cs := cuts ds
  steeringUniverse.map fun x => (x, aggMFAt cs x)

/-- Moment·area and area contributed by one sampling interval in skfuzzy's
`centroid` defuzzifier (`skfuzzy/defuzzify/defuzz.py`): zero-size intervals are
skipped, otherwise the exact centroid of the trapezoid with parallel sides
`y1`, `y2` over `[x1, x2]` is accumulated. -/
def segMA (x1 y1 x2 y2 : ℚ) : ℚ × ℚ :=
  if (y1 = 0 ∧ y2 = 0) ∨ x1 = x2 then (0, 0)
  else if y1 = y2 then
    ((x1 + x2) / 2 * ((x2 - x1) * y1), (x2 - x1) * y1)
  else if y1 = 0 then
    ((2 / 3 * (x2 - x1) + x1) * ((x2 - x1) * y2 / 2), (x2 - x1) * y2 / 2)
  else if y2 = 0 then
    ((1 / 3 * (x2 - x1) + x1) * ((x2 - x1) * y1 / 2), (x2 - x1) * y1 / 2)
  else
    ((2 / 3 * (x2 - x1) * (y2 + y1 / 2) / (y1 + y2) + x1) *
        ((x2 - x1) * (y1 + y2) / 2),
      (x2 - x1) * (y1 + y2) / 2)

/-- Sum of the per-interval (moment·area, area) pairs over consecutive sampled
points, starting from the point `p`. -/
def sumMA : (ℚ × ℚ) → List (ℚ × ℚ) → ℚ × ℚ
  | _, [] => (0, 0)
  | p, q :: rest =>
    ((segMA p.1 p.2 q.1 q.2).1 + (sumMA q rest).1,
      (segMA p.1 p.2 q.1 q.2).2 + (sumMA q rest).2)

/-- skfuzzy `centroid(x, mfx)`: singleton universes are special-cased; otherwise
total moment divided by total area.  (The source clamps the denominator to the
float machine epsilon; whenever the caller's zero-sum guard passed and the
universe is strictly increasing, the total area is positive, so that clamp is
never active and plain division is faithful there.) -/
def centroid (pts : List (ℚ × ℚ)) : ℚ :=
  match pts with
  | [] => 0
  | [p] => p.1 * p.2 / p.2
  | p :: rest => (sumMA p rest).1 / (sumMA p rest).2

/-- Total sampled membership, skfuzzy's emptiness test
(`zero_truth_degree = mfx.sum() == 0`). -/
def mfSum (pts : List (ℚ × ℚ)) : ℚ :=
  (pts.map Prod.snd).sum

/-- skfuzzy `defuzz(x, mfx, 'centroid')` as called by
`CrispValueCalculator.defuzz`: when the aggregated membership sums to zero the
library raises (`Total area is zero in defuzzification!`, re-raised as
`ValueError: Crisp output cannot be calculated ...`), embedded as `none`. -/
def defuzzCentroid (pts : List (ℚ × ℚ)) : Option ℚ :=
  if mfSum pts = 0 then none else some (centroid pts)

/-- The crisp steering output of one `self.steering.compute()` call on a given
distance vector.  A distance vector whose length differs from `RAYS` leaves
some antecedent without input (or names an unknown input), which skfuzzy
rejects, embedded as `none`. -/
def computeSteering (ds : List ℚ) : Option ℚ :=
  if ds.length = RAYS then defuzzCentroid (outputPoints ds) else none

/-- `Car.fuzzy_logic_controller`: writes the stored distances into the
simulation inputs, computes, and returns `(steering_adjustment, self.speed)`.
The returned car records the only state the method touches (the simulation
inputs); `speed`, `angle`, the rect and `distances` are read-only here. -/
def fuzzyLogicController (c : Car) : Car × Option (ℚ × ℚ) :=
  let c1 := { c with simInputs := c.distances }
  (c1, (computeSteering c.distances).map fun s => (s, c.speed))

/-- The autopilot branch of `Car.update` after `check_collision`: the fuzzy
steering delta is added to the heading and the rect moves by `fuzzy_speed`
along the new heading (`cosA, sinA` abstract the cosine/sine of the new
heading).  When the fuzzy computation fails the tick fails. -/
def updateAuto (cosA sinA : ℚ) (c : Car) : Option Car :=
  let fc := fuzzyLogicController c
  fc.2.map fun p =>
    { fc.1 with
      angle := fc.1.angle + p.1
      rectX := fc.1.rectX + p.2 * cosA
      rectY := fc.1.rectY - p.2 * sinA }

/-- The sampled points are listed with non-decreasing first coordinates
(skfuzzy universes are increasing `np.arange`s). -/
def sortedPts : List (ℚ × ℚ) → Prop
  | [] => True
  | [_] => True
  | p :: q :: rest => p.1 ≤ q.1 ∧ sortedPts (q :: rest)

/-- Executable sortedness test for a list of rationals. -/
def sortedQB : List ℚ → Bool
  | [] => true
  | [_] => true
  | x :: y :: rest => decide (x ≤ y) && sortedQB (y :: rest)

/-- A car state used by the concrete witnesses: speed 10, heading 0, centered
at (500, 400), all-zero distance and input arrays, autopilot on. -/
def openCar : Car :=
  ⟨10, 0, 500, 400, List.replicate RAYS 0, List.replicate RAYS 0, true⟩

/-- The all-far distance vector: every ray reads the maximum range 600. -/
def allFar : List ℚ := List.replicate RAYS 600

/-- `openCar` after measuring the all-far distances. -/
def allFarCar : Car := { openCar with distances := allFar }

/-- A distance vector with the leftmost ray fully close (distance 0) and all
other rays at maximum range. -/
def leftObstructed : List ℚ := [0, 600, 600, 600, 600, 600, 600]

/-- `openCar` after measuring `leftObstructed`. -/
def leftObstructedCar : Car := { openCar with distances := leftObstructed }

/-- `leftObstructedCar` with a different heading and position: same distances,
different remaining state. -/
def leftObstructedCarMoved : Car :=
  { leftObstructedCar with angle := 37, rectX := 123, rectY := 456 }

section CastRayLemmas

variable (W H : ℕ) (blk : ℤ → ℤ → Bool) (x y cosA sinA : ℚ) (R : ℕ)

lemma castRayGo_le : ∀ l : List ℕ, (∀ d ∈ l, d ≤ R) →
    castRayGo W H blk x y cosA sinA R l ≤ R := by
  intro l
  induction l with
  | nil =>
    intro _
    simp [castRayGo]
  | cons d rest ih =>
    intro h
    simp only [castRayGo]
    by_cases hin : inB W H (sampleX x cosA d) (sampleY y sinA d)
    · rw [if_pos hin]
      by_cases hb : blk (sampleX x cosA d) (sampleY y sinA d) = true
      · rw [if_pos hb]
        exact h d (List.mem_cons_self d rest)
      · rw [if_neg hb]
        exact ih fun e he => h e (List.mem_cons_of_mem _ he)
    · rw [if_neg hin]

lemma castRay_le : castRay W H blk x y cosA sinA R ≤ R :=
  castRayGo_le W H blk x y cosA sinA R (List.range R)
    (fun d hd => le_of_lt (List.mem_range.mp hd))

lemma castRayGo_first_hit : ∀ n s m, s ≤ m → m < s + n →
    stepIn W H x y cosA sinA m → stepBlk blk x y cosA sinA m →
    (∀ e, s ≤ e → e < m →
      stepIn W H x y cosA sinA e ∧ ¬ stepBlk blk x y cosA sinA e) →
    castRayGo W H blk x y cosA sinA R (List.range' s n) = m := by
  intro n
  induction n with
  | zero =>
    intro s m h1 h2 _ _ _
    omega
  | succ n ih =>
    intro s m h1 h2 hin hblk hpre
    rw [List.range'_succ]
    simp only [castRayGo]
    rcases Nat.eq_or_lt_of_le h1 with heq | hlt
    · subst heq
      have hin' : inB W H (sampleX x cosA s) (sampleY y sinA s) := hin
      have hblk' : blk (sampleX x cosA s) (sampleY y sinA s) = true := hblk
      rw [if_pos hin', if_pos hblk']
    · obtain ⟨hi, hb⟩ := hpre s (le_refl s) hlt
      have hi' : inB W H (sampleX x cosA s) (sampleY y sinA s) := hi
      have hb' : ¬ blk (sampleX x cosA s) (sampleY y sinA s) = true := hb
      rw [if_pos hi', if_neg hb']
      exact ih (s + 1) m (by omega) (by omega) hin hblk
        fun e he1 he2 => hpre e (by omega) he2

lemma castRayGo_no_hit : ∀ n s,
    (∀ e, e < s → stepIn W H x y cosA sinA e ∧ ¬ stepBlk blk x y cosA sinA e) →
    (∀ m, m < s + n → ¬(stepIn W H x y cosA sinA m ∧ stepBlk blk x y cosA sinA m ∧
      ∀ e, e < m → stepIn W H x y cosA sinA e ∧ ¬ stepBlk blk x y cosA sinA e)) →
    castRayGo W H blk x y cosA sinA R (List.range' s n) = R := by
  intro n
  induction n with
  | zero =>
    intro s _ _
    simp [castRayGo]
  | succ n ih =>
    intro s hpre hno
    rw [List.range'_succ]
    simp only [castRayGo]
    by_cases hin : inB W H (sampleX x cosA s) (sampleY y sinA s)
    · rw [if_pos hin]
      by_cases hb : blk (sampleX x cosA s) (sampleY y sinA s) = true
      · exact absurd ⟨hin, hb, hpre⟩ (hno s (by omega))
      · rw [if_neg hb]
        exact ih (s + 1)
          (fun e he => by
            rcases Nat.lt_succ_iff_lt_or_eq.mp he with h1 | h1
            · exact hpre e h1
            · subst h1
              exact ⟨hin, hb⟩)
          (fun m hm => hno m (by omega))
    · rw [if_neg hin]

end CastRayLemmas

/-- C3: for every start point, angle (through its cosine/sine values),
occupancy predicate and bounds, `cast_ray` marches in unit increments and
returns the first integer distance whose sampled point is in bounds and
blocked, provided every earlier sample was in bounds and unblocked; in every
other case — the march leaves the bounds before any hit, or no hit occurs at
distances `0, ..., R-1` — it returns exactly `R`. -/
theorem cast_ray_first_hit_or_max (W H : ℕ) (blk : ℤ → ℤ → Bool)
    (x y cosA sinA : ℚ) (R : ℕ) :
    (∀ m, m < R → stepIn W H x y cosA sinA m → stepBlk blk x y cosA sinA m →
      (∀ e, e < m → stepIn W H x y cosA sinA e ∧ ¬ stepBlk blk x y cosA sinA e) →
      castRay W H blk x y cosA sinA R = m) ∧
    ((∀ m, m < R → ¬(stepIn W H x y cosA sinA m ∧ stepBlk blk x y cosA sinA m ∧
        ∀ e, e < m → stepIn W H x y cosA sinA e ∧ ¬ stepBlk blk x y cosA sinA e)) →
      castRay W H blk x y cosA sinA R = R) := by
  constructor
  · intro m hm hin hblk hpre
    rw [castRay, List.range_eq_range']
    exact castRayGo_first_hit W H blk x y cosA sinA R R 0 m (by omega) (by omega)
      hin hblk (fun e _ he2 => hpre e he2)
  · intro hno
    rw [castRay, List.range_eq_range']
    exact castRayGo_no_hit W H blk x y cosA sinA R R 0
      (fun e he => absurd he (Nat.not_lt_zero e)) (fun m hm => hno m (by omega))

/-- C10: when the sample at distance 0 — the truncated start point itself — is
inside the field's bounds and blocked, `cast_ray` returns 0, because the march
samples the start point first.  (At `distance = 0` the trigonometric offsets
vanish, so the sample is exactly `(int(x), int(y))`.) -/
theorem cast_ray_blocked_start_zero (W H : ℕ) (blk : ℤ → ℤ → Bool)
    (x y cosA sinA : ℚ) (R : ℕ)
    (h1 : 0 ≤ pyInt x) (h2 : pyInt x < (W : ℤ))
    (h3 : 0 ≤ pyInt y) (h4 : pyInt y < (H : ℤ))
    (h5 : blk (pyInt x) (pyInt y) = true) :
    castRay W H blk x y cosA sinA R = 0 := by
  have hx : sampleX x cosA 0 = pyInt x := by
    simp [sampleX]
  have hy : sampleY y sinA 0 = pyInt y := by
    simp [sampleY]
  cases R with
  | zero =>
    simp [castRay, castRayGo]
  | succ n =>
    rw [castRay, List.range_eq_range', List.range'_succ]
    simp only [castRayGo]
    rw [hx, hy, if_pos ⟨h1, h2, h3, h4⟩, if_pos h5]

/-- C8: after any invocation of `check_collision`, the distances array has
exactly `RAYS` entries, each between 0 and the maximum range, whatever the
prior car state, screen and geometry — so the invariant holds after every tick. -/
theorem check_collision_invariant (W H : ℕ) (blk : ℤ → ℤ → Bool)
    (rayCos raySin : ℕ → ℚ) (fx fy : ℚ) (c : Car) :
    ((checkCollision W H blk rayCos raySin fx fy c).distances.length = RAYS) ∧
    (∀ d ∈ (checkCollision W H blk rayCos raySin fx fy c).distances,
      0 ≤ d ∧ d ≤ (MAX_DISTANCE : ℚ)) := by
  constructor
  · simp [checkCollision]
  · intro d hd
    simp only [checkCollision, List.mem_map] at hd
    obtain ⟨i, _, rfl⟩ := hd
    refine ⟨Nat.cast_nonneg _, ?_⟩
    exact_mod_cast castRay_le W H blk fx fy (rayCos i) (raySin i) MAX_DISTANCE

lemma centerRule_eq (N : ℕ) :
    rulesForIndex N (N / 2) = [⟨N / 2, DLabel.close, SLabel.hard_right⟩] := by
  unfold rulesForIndex
  rw [if_neg (lt_irrefl _), if_neg (lt_irrefl _)]
  have hsel : ¬ ((((N / 2 : ℕ) : ℤ) - ((N / 2 : ℕ) : ℤ)) * 15 < 0) := by
    omega
  rw [if_neg hsel]

lemma centerRule_mem (N : ℕ) (h : 1 ≤ N) :
    (⟨N / 2, DLabel.close, SLabel.hard_right⟩ : Rule) ∈ setupRules N := by
  have hlt : N / 2 < N := Nat.div_lt_self (by omega) (by omega)
  simp only [setupRules, List.mem_flatMap, List.mem_range]
  exact ⟨N / 2, hlt, by rw [centerRule_eq]; exact List.mem_singleton.mpr rfl⟩

/-- C2: the single rule generated for the center ray (index `N ÷ 2`) has
antecedent "close" and consequent "hard_right" — never "hard_left" — because
the selector `(i - N // 2) * 15` is 0 at the center index and `0 < 0` is
false. -/
theorem center_rule_always_hard_right (N : ℕ) (h : 1 ≤ N) :
    rulesForIndex N (N / 2) = [⟨N / 2, DLabel.close, SLabel.hard_right⟩] ∧
    (⟨N / 2, DLabel.close, SLabel.hard_right⟩ : Rule) ∈ setupRules N ∧
    ∀ r ∈ rulesForIndex N (N / 2), r.cons ≠ SLabel.hard_left := by
  refine ⟨centerRule_eq N, centerRule_mem N h, ?_⟩
  intro r hr
  rw [centerRule_eq] at hr
  rw [List.mem_singleton.mp hr]
  intro hc
  exact SLabel.noConfusion hc

/-- C4: every ray index left of center contributes exactly the rules
close→right and medium→slight_right, every index right of center exactly
close→left and medium→slight_left, and no rule of the base has a "far"
antecedent. -/
theorem rule_base_structure (N i : ℕ) :
    (i < N / 2 → rulesForIndex N i =
      [⟨i, DLabel.close, SLabel.right⟩, ⟨i, DLabel.medium, SLabel.slight_right⟩]) ∧
    (N / 2 < i → rulesForIndex N i =
      [⟨i, DLabel.close, SLabel.left⟩, ⟨i, DLabel.medium, SLabel.slight_left⟩]) ∧
    (∀ r ∈ setupRules N, r.ant ≠ DLabel.far) := by
  refine ⟨fun h => by simp [rulesForIndex, h], fun h => ?_, fun r hr => ?_⟩
  · have h2 : ¬ i < N / 2 := by omega
    simp [rulesForIndex, h2, h]
  · simp only [setupRules, List.mem_flatMap, List.mem_range] at hr
    obtain ⟨j, _, hj⟩ := hr
    unfold rulesForIndex at hj
    split_ifs at hj with h1 h2
    · rcases List.mem_pair.mp hj with rfl | rfl
      · exact fun hc => DLabel.noConfusion hc
      · exact fun hc => DLabel.noConfusion hc
    · rcases List.mem_pair.mp hj with rfl | rfl
      · exact fun hc => DLabel.noConfusion hc
      · exact fun hc => DLabel.noConfusion hc
    · rw [List.mem_singleton.mp hj]
      exact fun hc => DLabel.noConfusion hc
    · rw [List.mem_singleton.mp hj]
      exact fun hc => DLabel.noConfusion hc

/-- C5 counterexample: constructing the rule base with the even ray count 4
does not fail — no validation exists in `setup_fuzzy_control` — and returns a
complete rule base whose center index is silently 4 // 2 = 2. -/
theorem even_ray_count_setup_succeeds :
    setupRules 4 =
      [⟨0, DLabel.close, SLabel.right⟩, ⟨0, DLabel.medium, SLabel.slight_right⟩,
       ⟨1, DLabel.close, SLabel.right⟩, ⟨1, DLabel.medium, SLabel.slight_right⟩,
       ⟨2, DLabel.close, SLabel.hard_right⟩,
       ⟨3, DLabel.close, SLabel.left⟩, ⟨3, DLabel.medium, SLabel.slight_left⟩] := by
  decide

/-- C5 amended: for every ray count `N ≥ 1`, even ones included, the rule-base
construction succeeds and silently treats index `N ÷ 2` as the center ray,
emitting its close→hard_right rule. -/
theorem even_ray_count_silent_center (N : ℕ) (h : 1 ≤ N) :
    (⟨N / 2, DLabel.close, SLabel.hard_right⟩ : Rule) ∈ setupRules N :=
  centerRule_mem N h

lemma trimf_nonneg (a b c x : ℚ) : 0 ≤ trimf a b c x := by
  unfold trimf
  split_ifs with h1 h2 h3
  · exact zero_le_one
  · exact div_nonneg (by linarith [h2.1]) (by linarith [h2.1, h2.2])
  · exact div_nonneg (by linarith [h3.2]) (by linarith [h3.1, h3.2])
  · exact le_refl 0

lemma steerMF_nonneg (L : SLabel) (x : ℚ) : 0 ≤ steerMF L x := by
  cases L <;> exact trimf_nonneg _ _ _ _

lemma aggMFAt_nonneg (cs : List (SLabel × ℚ)) (x : ℚ) : 0 ≤ aggMFAt cs x := by
  induction cs with
  | nil => exact le_refl 0
  | cons p rest ih =>
    simp only [aggMFAt, List.foldr_cons] at ih ⊢
    exact le_trans ih (le_max_right _ _)

lemma aggMFAt_zero_cuts (cs : List (SLabel × ℚ)) (x : ℚ)
    (h : ∀ p ∈ cs, p.2 = 0) : aggMFAt cs x = 0 := by
  induction cs with
  | nil => rfl
  | cons p rest ih =>
    simp only [aggMFAt, List.foldr_cons] at ih ⊢
    rw [ih fun q hq => h q (List.mem_cons_of_mem _ hq),
      h p (List.mem_cons_self p rest),
      min_eq_left (steerMF_nonneg p.1 x), max_self]

lemma allFar_no_output : computeSteering allFar = none := by
  have hc : ∀ p ∈ cuts allFar, p.2 = 0 := by decide
  have hlen : allFar.length = RAYS := by simp [allFar]
  rw [computeSteering, if_pos hlen, defuzzCentroid,
    if_pos (show mfSum (outputPoints allFar) = 0 from ?_)]
  simp only [mfSum, outputPoints, List.map_map]
  refine List.sum_eq_zero fun y hy => ?_
  simp only [List.mem_map, Function.comp_apply] at hy
  obtain ⟨x, _, rfl⟩ := hy
  exact aggMFAt_zero_cuts (cuts allFar) x hc

/-- C1 counterexample: on the all-far input (all 7 distances at the maximum
range 600) the inference step does not return steering 0 — no rule fires, the
aggregated set is identically zero, and the centroid defuzzifier fails
(skfuzzy raises "Crisp output cannot be calculated"). -/
theorem allFar_steering_not_zero : computeSteering allFar ≠ some 0 := by
  rw [allFar_no_output]
  exact fun h => Option.noConfusion h

/-- C1 amended: on the all-far input no rule fires and the inference step
produces no crisp output at all — the controller raises instead of defaulting
to 0 (straight). -/
theorem allFar_steering_none : (fuzzyLogicController allFarCar).2 = none := by
  have hd : allFarCar.distances = allFar := rfl
  simp only [fuzzyLogicController, hd, allFar_no_output, Option.map_none']

lemma segMA_bounds (lo hi x1 y1 x2 y2 : ℚ)
    (hx : x1 ≤ x2) (hlo : lo ≤ x1) (hhi : x2 ≤ hi) (hy1 : 0 ≤ y1) (hy2 : 0 ≤ y2) :
    0 ≤ (segMA x1 y1 x2 y2).2 ∧
    lo * (segMA x1 y1 x2 y2).2 ≤ (segMA x1 y1 x2 y2).1 ∧
    (segMA x1 y1 x2 y2).1 ≤ hi * (segMA x1 y1 x2 y2).2 := by
  have hΔ : 0 ≤ x2 - x1 := by linarith
  unfold segMA
  split_ifs with h1 h2 h3 h4
  · exact ⟨le_refl 0, by simp, by simp⟩
  · have harea : 0 ≤ (x2 - x1) * y1 := mul_nonneg hΔ hy1
    have hm1 : lo ≤ (x1 + x2) / 2 := by linarith
    have hm2 : (x1 + x2) / 2 ≤ hi := by linarith
    exact ⟨harea, mul_le_mul_of_nonneg_right hm1 harea,
      mul_le_mul_of_nonneg_right hm2 harea⟩
  · have harea : 0 ≤ (x2 - x1) * y2 / 2 :=
      div_nonneg (mul_nonneg hΔ hy2) (by norm_num)
    have hm1 : lo ≤ 2 / 3 * (x2 - x1) + x1 := by linarith
    have hm2 : 2 / 3 * (x2 - x1) + x1 ≤ hi := by linarith
    exact ⟨harea, mul_le_mul_of_nonneg_right hm1 harea,
      mul_le_mul_of_nonneg_right hm2 harea⟩
  · have harea : 0 ≤ (x2 - x1) * y1 / 2 :=
      div_nonneg (mul_nonneg hΔ hy1) (by norm_num)
    have hm1 : lo ≤ 1 / 3 * (x2 - x1) + x1 := by linarith
    have hm2 : 1 / 3 * (x2 - x1) + x1 ≤ hi := by linarith
    exact ⟨harea, mul_le_mul_of_nonneg_right hm1 harea,
      mul_le_mul_of_nonneg_right hm2 harea⟩
  · have hy1p : 0 < y1 := lt_of_le_of_ne hy1 (Ne.symm h3)
    have hy2p : 0 < y2 := lt_of_le_of_ne hy2 (Ne.symm h4)
    have hsum : 0 < y1 + y2 := by linarith
    have harea : 0 ≤ (x2 - x1) * (y1 + y2) / 2 :=
      div_nonneg (mul_nonneg hΔ (le_of_lt hsum)) (by norm_num)
    have hfrac1 : 0 ≤ (y2 + y1 / 2) / (y1 + y2) :=
      div_nonneg (by linarith) (le_of_lt hsum)
    have hfrac2 : (y2 + y1 / 2) / (y1 + y2) ≤ 1 :=
      (div_le_one hsum).mpr (by linarith)
    have hrw : 2 / 3 * (x2 - x1) * (y2 + y1 / 2) / (y1 + y2) =
        2 / 3 * (x2 - x1) * ((y2 + y1 / 2) / (y1 + y2)) := mul_div_assoc _ _ _
    have hcoef : 0 ≤ 2 / 3 * (x2 - x1) := by linarith
    have hm1 : lo ≤ 2 / 3 * (x2 - x1) * (y2 + y1 / 2) / (y1 + y2) + x1 := by
      have : 0 ≤ 2 / 3 * (x2 - x1) * ((y2 + y1 / 2) / (y1 + y2)) :=
        mul_nonneg hcoef hfrac1
      rw [hrw]
      linarith
    have hm2 : 2 / 3 * (x2 - x1) * (y2 + y1 / 2) / (y1 + y2) + x1 ≤ hi := by
      have hle : 2 / 3 * (x2 - x1) * ((y2 + y1 / 2) / (y1 + y2)) ≤
          2 / 3 * (x2 - x1) * 1 :=
        mul_le_mul_of_nonneg_left hfrac2 hcoef
      rw [hrw]
      linarith
    exact ⟨harea, mul_le_mul_of_nonneg_right hm1 harea,
      mul_le_mul_of_nonneg_right hm2 harea⟩

lemma sumMA_bounds (lo hi : ℚ) : ∀ (rest : List (ℚ × ℚ)) (p : ℚ × ℚ),
    (∀ q ∈ p :: rest, lo ≤ q.1 ∧ q.1 ≤ hi ∧ 0 ≤ q.2) →
    sortedPts (p :: rest) →
    0 ≤ (sumMA p rest).2 ∧
    lo * (sumMA p rest).2 ≤ (sumMA p rest).1 ∧
    (sumMA p rest).1 ≤ hi * (sumMA p rest).2 := by
  intro rest
  induction rest with
  | nil =>
    intro p _ _
    exact ⟨le_refl 0, by simp [sumMA], by simp [sumMA]⟩
  | cons q rest' ih =>
    intro p hall hsort
    have hp := hall p (List.mem_cons_self p _)
    have hq := hall q (List.mem_cons_of_mem _ (List.mem_cons_self q _))
    obtain ⟨hpq, hsort'⟩ := hsort
    have hseg := segMA_bounds lo hi p.1 p.2 q.1 q.2 hpq hp.1 hq.2.1 hp.2.2 hq.2.2
    have hrec := ih q (fun r hr => hall r (List.mem_cons_of_mem _ hr)) hsort'
    simp only [sumMA]
    refine ⟨add_nonneg hseg.1 hrec.1, ?_, ?_⟩
    · rw [mul_add]
      exact add_le_add hseg.2.1 hrec.2.1
    · rw [mul_add]
      exact add_le_add hseg.2.2 hrec.2.2

lemma centroid_bounds (lo hi : ℚ) (hlo : lo ≤ 0) (hhi : 0 ≤ hi)
    (pts : List (ℚ × ℚ))
    (hall : ∀ q ∈ pts, lo ≤ q.1 ∧ q.1 ≤ hi ∧ 0 ≤ q.2) (hs : sortedPts pts) :
    lo ≤ centroid pts ∧ centroid pts ≤ hi := by
  match pts with
  | [] => exact ⟨hlo, hhi⟩
  | [p] =>
    simp only [centroid]
    by_cases hp : p.2 = 0
    · rw [hp]
      simpa using ⟨hlo, hhi⟩
    · rw [mul_div_assoc, div_self hp, mul_one]
      obtain ⟨h1, h2, _⟩ := hall p (List.mem_cons_self p _)
      exact ⟨h1, h2⟩
  | p :: q :: rest =>
    simp only [centroid]
    obtain ⟨ha, hm1, hm2⟩ := sumMA_bounds lo hi (q :: rest) p hall hs
    by_cases hz : (sumMA p (q :: rest)).2 = 0
    · rw [hz, div_zero]
      exact ⟨hlo, hhi⟩
    · have hpos : 0 < (sumMA p (q :: rest)).2 := lt_of_le_of_ne ha (Ne.symm hz)
      exact ⟨(le_div_iff₀ hpos).mpr hm1, (div_le_iff₀ hpos).mpr hm2⟩

set_option maxRecDepth 100000 in
lemma steeringUniverse_mem_bounds : ∀ x ∈ steeringUniverse, -90 ≤ x ∧ x ≤ 90 := by
  decide

lemma sortedPts_map (g : ℚ → ℚ) : ∀ l : List ℚ, sortedQB l = true →
    sortedPts (l.map fun x => (x, g x)) := by
  intro l
  induction l with
  | nil =>
    intro _
    simp [sortedPts]
  | cons x rest ih =>
    cases rest with
    | nil =>
      intro _
      simp [sortedPts]
    | cons y rest' =>
      intro h
      simp only [sortedQB, Bool.and_eq_true, decide_eq_true_eq] at h
      exact ⟨h.1, ih h.2⟩

lemma outputPoints_mem (ds : List ℚ) :
    ∀ q ∈ outputPoints ds, -90 ≤ q.1 ∧ q.1 ≤ 90 ∧ 0 ≤ q.2 := by
  intro q hq
  simp only [outputPoints, List.mem_map] at hq
  obtain ⟨x, hx, rfl⟩ := hq
  obtain ⟨h1, h2⟩ := steeringUniverse_mem_bounds x hx
  exact ⟨h1, h2, aggMFAt_nonneg _ _⟩

lemma outputPoints_sorted (ds : List ℚ) : sortedPts (outputPoints ds) :=
  sortedPts_map (fun x => aggMFAt (cuts ds) x) steeringUniverse (by decide)

/-- C6: whenever the inference step produces a value on a length-`RAYS`
distance vector with entries in [0, 600], the returned steering delta lies in
the output universe [-90, 90] (the centroid of a set confined to that range
cannot leave it). -/
theorem steering_delta_bounded (c : Car)
    (hlen : c.distances.length = RAYS)
    (hrange : ∀ d ∈ c.distances, 0 ≤ d ∧ d ≤ 600) :
    ∀ sd sp, (fuzzyLogicController c).2 = some (sd, sp) →
      -90 ≤ sd ∧ sd ≤ 90 := by
  intro sd sp hout
  simp only [fuzzyLogicController, Option.map_eq_some'] at hout
  obtain ⟨s, hs, heq⟩ := hout
  obtain ⟨h1, h2⟩ := Prod.mk.inj heq
  subst h1
  rw [computeSteering, if_pos hlen, defuzzCentroid] at hs
  by_cases hz : mfSum (outputPoints c.distances) = 0
  · rw [if_pos hz] at hs
    exact Option.noConfusion hs
  · rw [if_neg hz] at hs
    rw [← Option.some.inj hs]
    exact centroid_bounds (-90) 90 (by norm_num) (by norm_num)
      (outputPoints c.distances) (outputPoints_mem c.distances)
      (outputPoints_sorted c.distances)

/-- C7: the decision step is a deterministic function of the distance vector
and the speed — cars agreeing on those (whatever their heading or position)
get identical (steering, speed) outputs, and repeated calls trivially agree. -/
theorem controller_deterministic (c1 c2 : Car)
    (hd : c1.distances = c2.distances) (hs : c1.speed = c2.speed) :
    (fuzzyLogicController c1).2 = (fuzzyLogicController c2).2 := by
  simp only [fuzzyLogicController, hd, hs]

/-- C9: the decision step leaves `speed`, `angle`, the rect position and the
stored distances unchanged (it only rewrites the simulation inputs), returns
exactly the stored speed, and the steering delta reaches the heading only
through the separate update step, which adds it to the old angle. -/
theorem controller_frame (c : Car) :
    (fuzzyLogicController c).1.speed = c.speed ∧
    (fuzzyLogicController c).1.angle = c.angle ∧
    (fuzzyLogicController c).1.rectX = c.rectX ∧
    (fuzzyLogicController c).1.rectY = c.rectY ∧
    (fuzzyLogicController c).1.distances = c.distances ∧
    (∀ sd sp, (fuzzyLogicController c).2 = some (sd, sp) → sp = c.speed) ∧
    (∀ cosA sinA c', updateAuto cosA sinA c = some c' →
      ∃ sd sp, (fuzzyLogicController c).2 = some (sd, sp) ∧
        c'.angle = c.angle + sd) := by
  refine ⟨rfl, rfl, rfl, rfl, rfl, ?_, ?_⟩
  · intro sd sp h
    simp only [fuzzyLogicController, Option.map_eq_some'] at h
    obtain ⟨s, _, heq⟩ := h
    exact (Prod.mk.inj heq).2.symm
  · intro cosA sinA c' h
    simp only [updateAuto, Option.map_eq_some'] at h
    obtain ⟨p, hp, hc⟩ := h
    refine ⟨p.1, p.2, by rw [hp], ?_⟩
    rw [← hc]
    exact rfl

section ConcreteWitnesses

set_option maxRecDepth 100000

/-- Witness for C10: a start point (5.5, 3), truncated to the blocked in-bounds
pixel (5, 3) of a 10×10 field, yields distance 0. -/
theorem cast_ray_blocked_start_zero_witness :
    castRay 10 10 (fun a b => decide (a = 5 ∧ b = 3)) (11 / 2) 3 1 0 600 = 0 :=
  cast_ray_blocked_start_zero 10 10 (fun a b => decide (a = 5 ∧ b = 3))
    (11 / 2) 3 1 0 600 (by decide) (by decide) (by decide) (by decide) (by decide)

/-- Witness for C8: on an unobstructed 2000×1000 field every measured distance
is the maximum range 600, and the bounds hold at that member. -/
theorem check_collision_invariant_witness :
    (0 : ℚ) ≤ 600 ∧ (600 : ℚ) ≤ (MAX_DISTANCE : ℚ) :=
  (check_collision_invariant 2000 1000 (fun _ _ => false)
      (fun _ => 1) (fun _ => 0) 500 400 openCar).2 600 (by decide)

/-- Witness for C2: at the source's ray count 7 the center index is 3 and its
rule is close→hard_right, present in the rule base. -/
theorem center_rule_always_hard_right_witness :
    rulesForIndex 7 3 = [⟨3, DLabel.close, SLabel.hard_right⟩] ∧
    (⟨3, DLabel.close, SLabel.hard_right⟩ : Rule) ∈ setupRules 7 :=
  ⟨(center_rule_always_hard_right 7 (by decide)).1,
   (center_rule_always_hard_right 7 (by decide)).2.1⟩

/-- Witness for C4: the left ray 1 and right ray 5 of the 7-ray base get
exactly their two side rules, and a sample rule has a non-"far" antecedent. -/
theorem rule_base_structure_witness :
    rulesForIndex 7 1 =
      [⟨1, DLabel.close, SLabel.right⟩, ⟨1, DLabel.medium, SLabel.slight_right⟩] ∧
    rulesForIndex 7 5 =
      [⟨5, DLabel.close, SLabel.left⟩, ⟨5, DLabel.medium, SLabel.slight_left⟩] ∧
    (⟨1, DLabel.close, SLabel.right⟩ : Rule).ant ≠ DLabel.far :=
  ⟨(rule_base_structure 7 1).1 (by decide),
   (rule_base_structure 7 5).2.1 (by decide),
   (rule_base_structure 7 1).2.2 ⟨1, DLabel.close, SLabel.right⟩ (by decide)⟩

/-- Witness for the amended C5: with the even ray count 4 the silently chosen
center index is 2. -/
theorem even_ray_count_silent_center_witness :
    (⟨2, DLabel.close, SLabel.hard_right⟩ : Rule) ∈ setupRules 4 :=
  even_ray_count_silent_center 4 (by decide)

/-- Witness for C6: with only the leftmost ray fully close the controller
outputs steering 25 (the centroid of the clipped "right" triangle), inside
[-90, 90]. -/
theorem steering_delta_bounded_witness : -90 ≤ (25 : ℚ) ∧ (25 : ℚ) ≤ 90 :=
  steering_delta_bounded leftObstructedCar (by decide) (by decide) 25 10
    (by decide)

/-- Witness for C7: two cars sharing the distance vector and speed but with
different heading and position produce the same output. -/
theorem controller_deterministic_witness :
    (fuzzyLogicController leftObstructedCar).2 =
      (fuzzyLogicController leftObstructedCarMoved).2 :=
  controller_deterministic leftObstructedCar leftObstructedCarMoved rfl rfl

/-- Witness for C9: on the left-obstructed car the decision step keeps the
speed field and passes exactly that speed through as the returned speed. -/
theorem controller_frame_witness :
    (fuzzyLogicController leftObstructedCar).1.speed = leftObstructedCar.speed ∧
    (10 : ℚ) = leftObstructedCar.speed :=
  ⟨(controller_frame leftObstructedCar).1,
   (controller_frame leftObstructedCar).2.2.2.2.2.1 25 10 (by decide)⟩

/-- Witness for C3: a horizontal ray from the origin on a 100×100 field whose
first white pixel is at distance 7 measures exactly 7. -/
theorem cast_ray_first_hit_or_max_witness :
    castRay 100 100 (fun a b => decide (a = 7 ∧ b = 0)) 0 0 1 0 600 = 7 :=
  (cast_ray_first_hit_or_max 100 100 (fun a b => decide (a = 7 ∧ b = 0))
      0 0 1 0 600).1
    7 (by decide) (by decide) (by decide) (by decide)

end ConcreteWitnesses

end FuzzyCar
